import Mathlib

/-!
Verification of the Kaggle-Pneumothorax-Seg training / inference pipeline.

The definitions below are a shallow embedding of the Python source:
`create_submission.py`, `demo_on_val.py`, `solver.py` and `utils/loss.py`.
Machine floats are modelled by exact rationals (or reals with an explicit
non-finite value for the loss library), tensors by lists, and file-system
effects by explicit state records and event traces.
-/

namespace Pneumothorax

/-! ## Ensemble fusion (`create_submission.py` / `demo_on_val.py`, `Test.test_model`)

`vote_ticket = round(vote_model_num / 2.0)` uses Python 3 `round`, which on an
exact half rounds to the nearest even integer (banker's rounding).  For a
natural `k`, `k / 2.0` is exact, so the result is `k / 2` for even `k` and the
even one of `{m, m + 1}` for odd `k = 2 * m + 1`. -/

/-- Python 3 `round(k / 2.0)` for a natural number `k` (round-half-to-even). -/
def pythonRoundHalf (k : ℕ) : ℕ :=
  if k % 2 = 0 then k / 2
  else if (k / 2) % 2 = 0 then k / 2 else k / 2 + 1

/-- `vote_ticket = round(vote_model_num / 2.0)` (create_submission.py line 149). -/
def vote_ticket (vote_model_num : ℕ) : ℕ := pythonRoundHalf vote_model_num

/-- `np.where(m > th, 1, 0)` applied to a flattened prediction map. -/
def binarize (th : ℚ) (m : List ℚ) : List ℚ :=
  m.map fun p => if th < p then 1 else 0

/-- The per-image ensemble accumulator: `preds[index, ...] += pred` over all
folds, starting from `np.zeros` (create_submission.py lines 98, 144). -/
def accumulate (masks : List (List ℚ)) (n : ℕ) : List ℚ :=
  masks.foldl (fun acc m => (acc.zip m).map fun p => p.1 + p.2) (List.replicate n 0)

/-- Number of folds that mark pixel `j` positive. -/
def countPos (masks : List (List ℚ)) (j : ℕ) : ℕ :=
  (masks.filter fun m => m.getD j 0 = 1).length

/-- Vote-mode fusion of the accumulator: `np.where(pred > vote_ticket, 1, 0)`
(create_submission.py line 162). -/
def voteFuse (k : ℕ) (acc : List ℚ) : List ℚ :=
  binarize (vote_ticket k : ℚ) acc

/-! ## Per-fold classify→segment cascade (`Test.test_model`, lines 130–144) -/

/-- The classification-stage gate: binarize at `thresholds_classify[fold]`,
then zero the whole mask when the positive-pixel count is below
`less_than_sum[fold]`. -/
def gated_classify (cla : List ℚ) (th_cla less : ℚ) : List ℚ :=
  let pred := binarize th_cla cla
  if pred.sum < less then pred.map (fun _ => 0) else pred

/-- One fold's contribution to the ensemble accumulator, together with a flag
recording whether the segmentation-stage TTA pass was invoked
(`if np.sum(pred) > 0: pred = self.tta(img, seg_unet) ...`). -/
def fold_contribution (cla seg : List ℚ) (th_cla th_seg less : ℚ)
    (seg_average_vote : Bool) : List ℚ × Bool :=
  let pred := gated_classify cla th_cla less
  if 0 < pred.sum then
    ((if seg_average_vote then seg else binarize th_seg seg), true)
  else (pred, false)

/-! ## Dice metric (`solver.py`, `Train.dice_overall`, lines 343–364) -/

/-- One sample of `Train.dice_overall`: `intersect = (preds * targs).sum()`,
`union = (preds + targs).sum()`, with the `union == 0` special case
substituting `intersect := 1`, `union := 2`, returning `2 * intersect / union`. -/
def diceSample (p t : List ℚ) : ℚ :=
  let intersect := ((p.zip t).map fun a => a.1 * a.2).sum
  let union := ((p.zip t).map fun a => a.1 + a.2).sum
  let intersect2 := if union = 0 then 1 else intersect
  let union2 := if union = 0 then 2 else union
  2 * intersect2 / union2

/-- `Train.dice_overall`: the batch of per-sample dice values. -/
def dice_overall (preds targs : List (List ℚ)) : List ℚ :=
  (preds.zip targs).map fun pt => diceSample pt.1 pt.2

/-- `|P|` for a flattened binary mask: the number of positive pixels. -/
def posCount (p : List ℚ) : ℕ := (p.filter fun x => x = 1).length

/-- `|P ∩ T|`: the number of pixels positive in both masks. -/
def interCount (p t : List ℚ) : ℕ :=
  ((p.zip t).filter fun a => a.1 = 1 ∧ a.2 = 1).length

/-! ### Helper lemmas about binary lists -/

lemma sum_map_mul_eq_interCount (p t : List ℚ)
    (hp : ∀ x ∈ p, x = 0 ∨ x = 1) (ht : ∀ x ∈ t, x = 0 ∨ x = 1) :
    ((p.zip t).map fun a => a.1 * a.2).sum = (interCount p t : ℚ) := by
  induction p generalizing t with
  | nil => simp [interCount]
  | cons a p ih =>
    cases t with
    | nil => simp [interCount]
    | cons b t =>
      have ha := hp a (by simp)
      have hb := ht b (by simp)
      have hp' : ∀ x ∈ p, x = 0 ∨ x = 1 := fun x hx => hp x (by simp [hx])
      have ht' : ∀ x ∈ t, x = 0 ∨ x = 1 := fun x hx => ht x (by simp [hx])
      have hrec := ih t hp' ht'
      rcases ha with ha | ha <;> rcases hb with hb | hb <;>
        subst ha <;> subst hb <;>
        simp [interCount, List.filter_cons, List.zip_cons_cons, hrec] at hrec ⊢ <;>
        push_cast <;> ring

lemma sum_eq_posCount (p : List ℚ) (hp : ∀ x ∈ p, x = 0 ∨ x = 1) :
    p.sum = (posCount p : ℚ) := by
  induction p with
  | nil => simp [posCount]
  | cons a p ih =>
    have ha := hp a (by simp)
    have hp' : ∀ x ∈ p, x = 0 ∨ x = 1 := fun x hx => hp x (by simp [hx])
    have hrec := ih hp'
    rcases ha with ha | ha <;> subst ha <;>
      simp [posCount, List.filter_cons, hrec] at hrec ⊢ <;> push_cast <;> ring

lemma sum_map_add_zip (p t : List ℚ) (hlen : p.length = t.length) :
    ((p.zip t).map fun a => a.1 + a.2).sum = p.sum + t.sum := by
  induction p generalizing t with
  | nil =>
    cases t with
    | nil => simp
    | cons b t => simp at hlen
  | cons a p ih =>
    cases t with
    | nil => simp at hlen
    | cons b t =>
      have : p.length = t.length := by simpa using hlen
      simp [ih t this]; ring

lemma diceSample_eq (p t : List ℚ) (hlen : p.length = t.length)
    (hp : ∀ x ∈ p, x = 0 ∨ x = 1) (ht : ∀ x ∈ t, x = 0 ∨ x = 1) :
    diceSample p t = if posCount p + posCount t = 0 then 1
      else 2 * (interCount p t : ℚ) / ((posCount p : ℚ) + (posCount t : ℚ)) := by
  unfold diceSample
  rw [sum_map_mul_eq_interCount p t hp ht, sum_map_add_zip p t hlen,
      sum_eq_posCount p hp, sum_eq_posCount t ht]
  have hcast : ((posCount p : ℚ) + (posCount t : ℚ) = 0) ↔ posCount p + posCount t = 0 := by
    constructor
    · intro h; exact_mod_cast h
    · intro h; exact_mod_cast congrArg (fun k : ℕ => (k : ℚ)) h
  dsimp only
  simp only [hcast]
  by_cases h : posCount p + posCount t = 0
  · rw [if_pos h, if_pos h, if_pos h]
    norm_num
  · rw [if_neg h, if_neg h, if_neg h]

end Pneumothorax

namespace Pneumothorax

/-! ## Claims C1, C2, C4 -/

/-- Index lemma for the ensemble accumulator fold. -/
lemma accumFold_getElem? (masks : List (List ℚ)) (acc : List ℚ) (n j : ℕ)
    (hacc : acc.length = n) (hm : ∀ m ∈ masks, m.length = n) (hj : j < n) :
    (masks.foldl (fun a m => (a.zip m).map fun p => p.1 + p.2) acc)[j]? =
      some (acc.getD j 0 + (masks.map fun m => m.getD j 0).sum) := by
  induction masks generalizing acc with
  | nil =>
    have hj' : j < acc.length := by omega
    simp [List.getElem?_eq_getElem hj', List.getD_eq_getElem acc 0 hj']
  | cons m ms ih =>
    have hmlen : m.length = n := hm m (by simp)
    have hm' : ∀ x ∈ ms, x.length = n := fun x hx => hm x (by simp [hx])
    have hzlen : ((acc.zip m).map fun p : ℚ × ℚ => p.1 + p.2).length = n := by
      simp [List.length_zip, hacc, hmlen]
    have hja : j < acc.length := by omega
    have hjm : j < m.length := by omega
    have hjz : j < (acc.zip m).length := by simp [List.length_zip]; omega
    have hstep : ((acc.zip m).map fun p : ℚ × ℚ => p.1 + p.2).getD j 0 =
        acc.getD j 0 + m.getD j 0 := by
      have hjz' : j < ((acc.zip m).map fun p : ℚ × ℚ => p.1 + p.2).length := by omega
      rw [List.getD_eq_getElem _ 0 hjz', List.getD_eq_getElem acc 0 hja,
        List.getD_eq_getElem m 0 hjm]
      simp [List.getElem_zip]
    rw [List.foldl_cons, ih _ hzlen hm', hstep]
    simp; ring

lemma accumulate_getElem? (masks : List (List ℚ)) (n j : ℕ)
    (hm : ∀ m ∈ masks, m.length = n) (hj : j < n) :
    (accumulate masks n)[j]? = some ((masks.map fun m => m.getD j 0).sum) := by
  unfold accumulate
  rw [accumFold_getElem? masks _ n j (by simp) hm hj]
  simp

lemma sum_getD_eq_countPos (masks : List (List ℚ)) (n j : ℕ)
    (hm : ∀ m ∈ masks, m.length = n) (hj : j < n)
    (hbin : ∀ m ∈ masks, ∀ x ∈ m, x = 0 ∨ x = 1) :
    (masks.map fun m => m.getD j 0).sum = (countPos masks j : ℚ) := by
  induction masks with
  | nil => simp [countPos]
  | cons m ms ih =>
    have hmlen : m.length = n := hm m (by simp)
    have hjm : j < m.length := by omega
    have hv : m.getD j 0 ∈ m := by
      rw [List.getD_eq_getElem m 0 hjm]; exact List.getElem_mem hjm
    have hm' : ∀ x ∈ ms, x.length = n := fun x hx => hm x (by simp [hx])
    have hbin' : ∀ x ∈ ms, ∀ y ∈ x, y = 0 ∨ y = 1 := fun x hx => hbin x (by simp [hx])
    have hrec := ih hm' hbin'
    simp only [countPos] at hrec ⊢
    simp only [List.map_cons, List.sum_cons, List.filter_cons]
    rcases hbin m (by simp) _ hv with h0 | h1
    · rw [h0, if_neg (by simp), zero_add, hrec]
    · rw [h1, if_pos (by simp), List.length_cons, hrec]
      push_cast
      ring

/-- C1 (corrected): with Python 3 banker's rounding, `round(5 / 2.0) = 2`, not
`3`; a pixel that 3 of 5 folds mark positive is fused to **positive**
(`3 > 2`), contradicting the claim that the fused mask marks it negative. -/
theorem claim_C1_counterexample :
    vote_ticket 5 ≠ 3 ∧ vote_ticket 5 = 2 ∧
    voteFuse 5 (accumulate [[1], [1], [1], [0], [0]] 1) = [1] := by
  norm_num [vote_ticket, pythonRoundHalf, voteFuse, binarize, accumulate]

/-- C1 (amended): vote-mode fusion marks a pixel positive exactly when its
accumulated vote count is strictly greater than `round(K / 2.0)` under
Python 3 round-half-to-even; for `K = 5` the vote ticket is `2`, so exactly
3 positive folds yield a **positive** pixel. -/
theorem claim_C1_vote_fusion (masks : List (List ℚ)) (n j : ℕ)
    (hm : ∀ m ∈ masks, m.length = n)
    (hbin : ∀ m ∈ masks, ∀ x ∈ m, x = 0 ∨ x = 1)
    (hj : j < n) :
    (voteFuse masks.length (accumulate masks n))[j]? =
      some (if (vote_ticket masks.length : ℚ) < (countPos masks j : ℚ) then 1 else 0) ∧
    vote_ticket 5 = 2 := by
  refine ⟨?_, by decide⟩
  unfold voteFuse binarize
  rw [List.getElem?_map, accumulate_getElem? masks n j hm hj,
    sum_getD_eq_countPos masks n j hm hj hbin]
  rfl

/-- C1 witness: concrete 5-fold instance with 3 positive votes at pixel 0. -/
theorem claim_C1_vote_fusion_witness :
    (voteFuse ([[(1:ℚ)], [1], [1], [0], [0]]).length
        (accumulate [[(1:ℚ)], [1], [1], [0], [0]] 1))[0]? =
      some (if (vote_ticket ([[(1:ℚ)], [1], [1], [0], [0]]).length : ℚ) <
          (countPos [[(1:ℚ)], [1], [1], [0], [0]] 0 : ℚ) then 1 else 0) ∧
    vote_ticket 5 = 2 :=
  claim_C1_vote_fusion [[(1:ℚ)], [1], [1], [0], [0]] 1 0
    (by decide) (by decide) (by decide)

/-- C2 (confirmed): for equal-shape binary batches, `dice_overall` computes
per sample `2|P∩T| / (|P|+|T|)`, except that a sample with `|P|+|T| = 0` gets
intersection `1` and union `2` substituted, so its dice is exactly `1`. -/
theorem claim_C2_dice_overall (preds targs : List (List ℚ)) (i : ℕ)
    (hlen : preds.length = targs.length)
    (hsl : ∀ pt ∈ preds.zip targs, pt.1.length = pt.2.length)
    (hbinp : ∀ p ∈ preds, ∀ x ∈ p, x = 0 ∨ x = 1)
    (hbint : ∀ t ∈ targs, ∀ x ∈ t, x = 0 ∨ x = 1)
    (hi : i < preds.length) (hi' : i < targs.length) :
    (dice_overall preds targs)[i]? =
      some (if posCount preds[i] + posCount targs[i] = 0 then 1
        else 2 * (interCount preds[i] targs[i] : ℚ) /
          ((posCount preds[i] : ℚ) + (posCount targs[i] : ℚ))) := by
  have hzi : i < (preds.zip targs).length := by
    simp [List.length_zip]; omega
  unfold dice_overall
  rw [List.getElem?_map, List.getElem?_eq_getElem hzi]
  have hz : (preds.zip targs)[i] = (preds[i], targs[i]) := List.getElem_zip ..
  have hmemz : (preds[i], targs[i]) ∈ preds.zip targs := by
    rw [← hz]; exact List.getElem_mem hzi
  rw [hz]
  simp only [Option.map_some']
  congr 1
  exact diceSample_eq preds[i] targs[i] (hsl _ hmemz)
    (hbinp _ (List.getElem_mem hi)) (hbint _ (List.getElem_mem hi'))

/-- C2 witness: a two-sample batch, one sample empty-vs-empty (dice `1`),
one with `P = T = {pixel 0}` of two pixels. -/
theorem claim_C2_dice_overall_witness :
    (dice_overall [[0, 0], [1, 0]] [[0, 0], [1, 1]])[0]? =
      some (if posCount [(0:ℚ), 0] + posCount [(0:ℚ), 0] = 0 then 1
        else 2 * (interCount [(0:ℚ), 0] [(0:ℚ), 0] : ℚ) /
          ((posCount [(0:ℚ), 0] : ℚ) + (posCount [(0:ℚ), 0] : ℚ))) :=
  claim_C2_dice_overall [[0, 0], [1, 0]] [[0, 0], [1, 1]] 0
    (by decide) (by decide) (by decide) (by decide) (by decide) (by decide)

/-- C4 (confirmed): when the thresholded classification mask's positive-pixel
count is below `less_than_sum[fold]`, the fold contributes an all-zero mask
and the segmentation stage is not invoked; the segmentation TTA pass runs
exactly when the gated classification mask has a positive sum. -/
theorem claim_C4_classification_gate (cla seg : List ℚ) (th_cla th_seg less : ℚ)
    (avg : Bool) :
    ((binarize th_cla cla).sum < less →
      fold_contribution cla seg th_cla th_seg less avg =
        (List.replicate cla.length 0, false)) ∧
    ((fold_contribution cla seg th_cla th_seg less avg).2 = true ↔
      0 < (gated_classify cla th_cla less).sum) := by
  constructor
  · intro h
    have hz : gated_classify cla th_cla less = List.replicate cla.length 0 := by
      unfold gated_classify
      rw [if_pos h]
      simp [binarize, Function.comp_def, List.map_const']
    unfold fold_contribution
    rw [hz]
    dsimp only
    have hsum : (List.replicate cla.length (0:ℚ)).sum = 0 := by simp
    rw [hsum, if_neg (lt_irrefl 0)]
  · unfold fold_contribution
    by_cases h : 0 < (gated_classify cla th_cla less).sum <;> simp [h]

/-! ## Claim C3: stage-2 resume (`solver.py`, `Train.train_stage2` lines
208–236 and `Train.load_checkpoint` lines 107–126)

The stage of a resume checkpoint is recovered by `self.resume.split('_')[2]`.
Python's `str.split(sep)` keeps empty pieces; it is embedded as `pySplit`
over the character list of the filename. -/

/-- Python `s.split(sep)` for a single-character separator. -/
def pySplit (sep : Char) : List Char → List (List Char)
  | [] => [[]]
  | c :: cs =>
    let r := pySplit sep cs
    if c = sep then [] :: r
    else
      match r with
      | [] => [[c]]
      | h :: t => (c :: h) :: t

/-- `resume.split('_')[2]`, `none` when the split has fewer than 3 pieces. -/
def stageTag (resume : String) : Option (List Char) :=
  (pySplit '_' resume.toList)[2]?

/-- The checkpoint record saved by `Train.save_checkpoint`:
`{'epoch', 'state_dict', 'max_dice', 'optimizer', 'lr'}`. Weight and
optimizer blobs are abstract types `W` and `O`. -/
structure Checkpoint (W O : Type) where
  epoch : ℕ
  state_dict : W
  max_dice : ℚ
  optimizer : O
  lr : ℚ
  deriving DecidableEq

/-- The optimizer slot: either a fresh Adam built at a given learning rate
(`optim.Adam(..., self.lr_stage2, ...)`) or a state loaded from a
checkpoint. -/
inductive OptimState (O : Type) where
  | fresh (lr : ℚ)
  | loaded (st : O)
  deriving DecidableEq

/-- The mutable trainer fields touched by resume handling:
`self.start_epoch`, `self.max_dice`, `self.lr`, the model weights and the
optimizer. -/
structure TrainState (W O : Type) where
  start_epoch : ℕ
  max_dice : ℚ
  lr : ℚ
  weights : W
  optim : OptimState O
  deriving DecidableEq

/-- `Train.load_checkpoint(load_optimizer)`: always loads weights,
`start_epoch` and `max_dice`; loads `lr` and the optimizer state only when
`load_optimizer` is true. -/
def load_checkpoint {W O : Type} (c : Checkpoint W O) (load_optimizer : Bool)
    (s : TrainState W O) : TrainState W O :=
  { start_epoch := c.epoch
    max_dice := c.max_dice
    lr := if load_optimizer then c.lr else s.lr
    weights := c.state_dict
    optim := if load_optimizer then OptimState.loaded c.optimizer else s.optim }

/-- The checkpoint filename `'%s_%d_%d.pth' % (model_type, stage, index)`. -/
def checkpointName (model : String) (stage idx : ℕ) : String :=
  model ++ "_" ++ toString stage ++ "_" ++ toString idx ++ ".pth"

/-- The resume prologue of `Train.train_stage2` (lines 208–230): build a
fresh optimizer at `lr_stage2`, then branch on `resume.split('_')[2]`.
`store` models the checkpoint files on disk; a missing file raises
`FileNotFoundError` (modelled as `Except.error`). -/
def train_stage2_setup {W O : Type} (resume : Option String)
    (store : String → Option (Checkpoint W O)) (lr_stage2 : ℚ)
    (s0 : TrainState W O) : Except String (TrainState W O) :=
  let s := { s0 with optim := OptimState.fresh lr_stage2 }
  match resume with
  | none => Except.ok { s with start_epoch := 0 }
  | some r =>
    if stageTag r = some ['2'] then
      match store r with
      | some c => Except.ok (load_checkpoint c true s)
      | none => Except.error r
    else if stageTag r = some ['1'] then
      match store r with
      | some c => Except.ok { load_checkpoint c false s with start_epoch := 0 }
      | none => Except.error r
    else Except.ok s

/-- Concrete checkpoint contents used in the C3 counterexample. -/
def ckpt0 : Checkpoint ℕ ℕ :=
  { epoch := 7, state_dict := 1, max_dice := 2, optimizer := 5, lr := 3 }

/-- A checkpoint store holding a stage-2 linknet checkpoint and a stage-1
U_Net checkpoint. -/
def store0 : String → Option (Checkpoint ℕ ℕ) := fun n =>
  if n = "linknet_2_0.pth" ∨ n = "U_Net_1_0.pth" then some ckpt0 else none

/-- The trainer state entering `train_stage2`. -/
def initState : TrainState ℕ ℕ :=
  { start_epoch := 0, max_dice := 0, lr := 1, weights := 0,
    optim := OptimState.fresh 1 }

/-- C3 counterexample: (i) for model type `linknet` (no underscore in the
name), `'linknet_2_0.pth'.split('_')[2] = '0.pth'`, so a supplied stage-2
checkpoint is silently ignored — neither weights nor epoch are loaded;
(ii) for a stage-1 `U_Net` checkpoint, `max_dice` is loaded as well, so not
*only* the model weights are loaded. -/
theorem claim_C3_counterexample :
    ("linknet_2_0.pth" = checkpointName "linknet" 2 0 ∧
      store0 "linknet_2_0.pth" = some ckpt0 ∧
      train_stage2_setup (some "linknet_2_0.pth") store0 4 initState =
        Except.ok { initState with optim := OptimState.fresh 4 } ∧
      ckpt0.epoch = 7 ∧ initState.weights ≠ ckpt0.state_dict) ∧
    ("U_Net_1_0.pth" = checkpointName "U_Net" 1 0 ∧
      train_stage2_setup (some "U_Net_1_0.pth") store0 4 initState =
        Except.ok { start_epoch := 0, max_dice := ckpt0.max_dice,
                    lr := initState.lr, weights := ckpt0.state_dict,
                    optim := OptimState.fresh 4 } ∧
      ckpt0.max_dice ≠ initState.max_dice) := by
  refine ⟨⟨rfl, rfl, rfl, rfl, by decide⟩, rfl, rfl, by decide⟩

/-- C3 (amended): for every model type whose name contains exactly one
underscore (`U_Net`, `R2U_Net`, `AttU_Net`, `R2AttU_Net`, `unet_resnet34`)
and fold index below 5, stage-2 resume has three cases: (a) no resume —
fresh start at epoch 0 with a fresh optimizer at `lr_stage2`; (b) a stage-1
checkpoint — model weights *and* `max_dice` are loaded (not optimizer
state, learning rate or epoch) and the epoch counter restarts at 0; (c) a
stage-2 checkpoint — weights, `max_dice`, optimizer state, learning rate
and epoch counter are all loaded.  (For `linknet` and `deeplabv3plus` the
filename parsing misfires and the resume is silently ignored.) -/
theorem claim_C3_stage2_resume {W O : Type} (m : String)
    (hm : m ∈ ["U_Net", "R2U_Net", "AttU_Net", "R2AttU_Net", "unet_resnet34"])
    (i : ℕ) (hi : i < 5)
    (store : String → Option (Checkpoint W O)) (c : Checkpoint W O)
    (lr2 : ℚ) (s0 : TrainState W O) :
    (train_stage2_setup none store lr2 s0 =
      Except.ok { s0 with start_epoch := 0, optim := OptimState.fresh lr2 }) ∧
    (store (checkpointName m 1 i) = some c →
      train_stage2_setup (some (checkpointName m 1 i)) store lr2 s0 =
        Except.ok { start_epoch := 0, max_dice := c.max_dice, lr := s0.lr,
                    weights := c.state_dict, optim := OptimState.fresh lr2 }) ∧
    (store (checkpointName m 2 i) = some c →
      train_stage2_setup (some (checkpointName m 2 i)) store lr2 s0 =
        Except.ok { start_epoch := c.epoch, max_dice := c.max_dice,
                    lr := c.lr, weights := c.state_dict,
                    optim := OptimState.loaded c.optimizer }) := by
  have htag1 : stageTag (checkpointName m 1 i) = some ['1'] := by
    fin_cases hm <;> interval_cases i <;> decide
  have htag2 : stageTag (checkpointName m 2 i) = some ['2'] := by
    fin_cases hm <;> interval_cases i <;> decide
  refine ⟨rfl, ?_, ?_⟩
  · intro hstore
    unfold train_stage2_setup
    dsimp only
    rw [htag1, if_neg (by decide), if_pos rfl, hstore]
    rfl
  · intro hstore
    unfold train_stage2_setup
    dsimp only
    rw [htag2, if_pos rfl, hstore]
    rfl

/-- C3 witness: the stage-2 resume case for `U_Net`, fold 0, against a
concrete store. -/
theorem claim_C3_stage2_resume_witness :
    "U_Net" ∈ ["U_Net", "R2U_Net", "AttU_Net", "R2AttU_Net", "unet_resnet34"] ∧
    (0 : ℕ) < 5 ∧
    train_stage2_setup (some (checkpointName "U_Net" 2 0))
        (fun n => if n = checkpointName "U_Net" 2 0 then some ckpt0 else none)
        4 initState =
      Except.ok { start_epoch := ckpt0.epoch, max_dice := ckpt0.max_dice,
                  lr := ckpt0.lr, weights := ckpt0.state_dict,
                  optim := OptimState.loaded ckpt0.optimizer } :=
  ⟨by decide, by decide,
    (claim_C3_stage2_resume "U_Net" (by decide) 0 (by decide)
      (fun n => if n = checkpointName "U_Net" 2 0 then some ckpt0 else none)
      ckpt0 4 initState).2.2 (by simp)⟩

/-- C4 witness: a one-pixel image whose classification mask has one positive
pixel, below the cutoff `5`, so the fold contributes `[0]` without invoking
the segmentation stage. -/
theorem claim_C4_classification_gate_witness :
    (binarize 0 [(1:ℚ)/2]).sum < 5 ∧
    fold_contribution [(1:ℚ)/2] [9/10] 0 0 5 false = (List.replicate 1 0, false) ∧
    ((fold_contribution [(1:ℚ)/2] [9/10] 0 0 5 false).2 = true ↔
      0 < (gated_classify [(1:ℚ)/2] 0 5).sum) := by
  have h := claim_C4_classification_gate [(1:ℚ)/2] [9/10] 0 0 5 false
  have hlt : (binarize 0 [(1:ℚ)/2]).sum < 5 := by norm_num [binarize]
  exact ⟨hlt, h.1 hlt, h.2⟩

/-! ## Claim C5: the "best" checkpoint invariant (`solver.py`,
`Train.train` lines 186–199 / `Train.train_stage2` lines 288–301, and
`Train.save_checkpoint` lines 98–105)

Each epoch compares the validation dice against `self.max_dice`; on strict
improvement `max_dice` is updated and `is_best` set.  `save_checkpoint`
always writes the per-epoch file (whose `max_dice` field is the current
`self.max_dice`) and copies it to the `_best` file iff `is_best`.  Only the
`max_dice` field of the files is tracked. -/

/-- The `max_dice` fields of the two checkpoint files on disk
(`none` = file absent). -/
structure CkptFiles where
  latest : Option ℚ
  best : Option ℚ
  deriving DecidableEq

/-- One epoch tail: validation produced `dice`; update `max_dice`, write the
full checkpoint, copy to best iff strict improvement.  Returns the new
`max_dice`, the new files, and the `is_best` flag. -/
def train_epoch (m : ℚ) (files : CkptFiles) (dice : ℚ) : ℚ × CkptFiles × Bool :=
  if m < dice then
    (dice, { latest := some dice, best := some dice }, true)
  else
    (m, { latest := some m, best := files.best }, false)

/-- The epoch loop: run `train_epoch` over the list of per-epoch validation
dice values, collecting the `is_best` flags in order. -/
def train_run (m0 : ℚ) (f0 : CkptFiles) : List ℚ → ℚ × CkptFiles × List Bool
  | [] => (m0, f0, [])
  | d :: rest =>
    let e := train_epoch m0 f0 d
    let r := train_run e.1 e.2.1 rest
    (r.1, r.2.1, e.2.2 :: r.2.2)

/-- The running maximum of the observed dice values, seeded with the initial
`max_dice`. -/
def runningMax (m0 : ℚ) (l : List ℚ) : ℚ := l.foldl max m0

lemma runningMax_nil (m0 : ℚ) : runningMax m0 [] = m0 := rfl

lemma runningMax_cons (m0 d : ℚ) (l : List ℚ) :
    runningMax m0 (d :: l) = runningMax (max m0 d) l := rfl

lemma self_le_runningMax (m0 : ℚ) (l : List ℚ) : m0 ≤ runningMax m0 l := by
  induction l generalizing m0 with
  | nil => exact le_refl m0
  | cons d l ih => exact le_trans (le_max_left m0 d) (ih (max m0 d))

lemma mem_le_runningMax (m0 : ℚ) (l : List ℚ) : ∀ d ∈ l, d ≤ runningMax m0 l := by
  induction l generalizing m0 with
  | nil => intro d hd; simp at hd
  | cons a l ih =>
    intro d hd
    rcases List.mem_cons.mp hd with h | h
    · subst h
      exact le_trans (le_max_right m0 d) (self_le_runningMax (max m0 d) l)
    · exact ih (max m0 a) d h

lemma runningMax_eq_or_mem (m0 : ℚ) (l : List ℚ) :
    runningMax m0 l = m0 ∨ runningMax m0 l ∈ l := by
  induction l generalizing m0 with
  | nil => exact Or.inl rfl
  | cons a l ih =>
    rw [runningMax_cons]
    rcases ih (max m0 a) with h | h
    · rcases max_cases m0 a with ⟨he, _⟩ | ⟨he, _⟩
      · exact Or.inl (h.trans he)
      · exact Or.inr (by rw [h, he]; exact List.mem_cons_self a l)
    · exact Or.inr (List.mem_cons_of_mem a h)

/-- The final `max_dice` is the running maximum. -/
lemma train_run_fst (m0 : ℚ) (f0 : CkptFiles) (ds : List ℚ) :
    (train_run m0 f0 ds).1 = runningMax m0 ds := by
  induction ds generalizing m0 f0 with
  | nil => rfl
  | cons d rest ih =>
    rw [runningMax_cons]
    unfold train_run train_epoch
    by_cases h : m0 < d
    · rw [if_pos h]
      dsimp only
      rw [ih]
      congr 1
      exact (max_eq_right (le_of_lt h)).symm
    · rw [if_neg h]
      dsimp only
      rw [ih]
      congr 1
      exact (max_eq_left (le_of_not_lt h)).symm

/-- The best file after the run: written iff some epoch strictly improved on
the initial `max_dice`, and then it stores the running maximum. -/
lemma train_run_best (m0 : ℚ) (f0 : CkptFiles) (ds : List ℚ) :
    (train_run m0 f0 ds).2.1.best =
      if ∃ d ∈ ds, m0 < d then some (runningMax m0 ds) else f0.best := by
  induction ds generalizing m0 f0 with
  | nil => simp [train_run]
  | cons d rest ih =>
    unfold train_run train_epoch
    by_cases h : m0 < d
    · rw [if_pos h]
      dsimp only
      rw [ih]
      have hmax : max m0 d = d := max_eq_right (le_of_lt h)
      have hex : ∃ x ∈ d :: rest, m0 < x := ⟨d, List.mem_cons_self d rest, h⟩
      rw [if_pos hex]
      by_cases h2 : ∃ x ∈ rest, d < x
      · rw [if_pos h2, runningMax_cons, hmax]
      · have hdr : runningMax d rest = d := by
          rcases runningMax_eq_or_mem d rest with he | he
          · exact he
          · exact le_antisymm (le_of_not_lt fun hlt => h2 ⟨_, he, hlt⟩)
              (self_le_runningMax d rest)
        rw [if_neg h2, runningMax_cons, hmax, hdr]
    · rw [if_neg h]
      dsimp only
      rw [ih]
      have hmax : max m0 d = m0 := max_eq_left (le_of_not_lt h)
      by_cases h2 : ∃ x ∈ rest, m0 < x
      · have hex : ∃ x ∈ d :: rest, m0 < x :=
          ⟨h2.choose, List.mem_cons_of_mem d h2.choose_spec.1, h2.choose_spec.2⟩
        rw [if_pos h2, if_pos hex, runningMax_cons, hmax]
      · have hnex : ¬∃ x ∈ d :: rest, m0 < x := by
          rintro ⟨x, hx, hlt⟩
          rcases List.mem_cons.mp hx with rfl | hx'
          · exact h hlt
          · exact h2 ⟨x, hx', hlt⟩
        rw [if_neg h2, if_neg hnex]

/-- The `is_best` flags: epoch `k` updates the best file iff its dice
strictly exceeds the running maximum over the earlier epochs. -/
lemma train_run_flags (m0 : ℚ) (f0 : CkptFiles) (ds : List ℚ) (k : ℕ)
    (hk : k < ds.length) :
    (train_run m0 f0 ds).2.2[k]? =
      some (decide (runningMax m0 (ds.take k) < ds.getD k 0)) := by
  induction ds generalizing m0 f0 k with
  | nil => simp at hk
  | cons d rest ih =>
    unfold train_run train_epoch
    cases k with
    | zero =>
      by_cases h : m0 < d
      · rw [if_pos h]
        simp [runningMax_nil, h]
      · rw [if_neg h]
        simp [runningMax_nil, h]
    | succ k =>
      have hk' : k < rest.length := by simpa using hk
      by_cases h : m0 < d
      · rw [if_pos h]
        dsimp only
        rw [List.getElem?_cons_succ, ih _ _ _ hk']
        congr 2
        rw [List.take_succ_cons, runningMax_cons, max_eq_right (le_of_lt h)]
        rfl
      · rw [if_neg h]
        dsimp only
        rw [List.getElem?_cons_succ, ih _ _ _ hk']
        congr 2
        rw [List.take_succ_cons, runningMax_cons, max_eq_left (le_of_not_lt h)]
        rfl

/-- C5 (confirmed): starting a run with no best file, after any number of
epochs (i) the best file exists iff some epoch's validation dice strictly
exceeded the initial `max_dice`; (ii) when it exists, its stored `max_dice`
is an observed dice value that bounds all observed dice values (the maximum
observed so far) and strictly exceeds the initial `max_dice`; (iii) the
best file is updated exactly in the epochs whose dice strictly exceeds the
running maximum. -/
theorem claim_C5_best_invariant (m0 : ℚ) (ds : List ℚ) :
    ((train_run m0 ⟨none, none⟩ ds).2.1.best.isSome ↔ ∃ d ∈ ds, m0 < d) ∧
    (∀ b, (train_run m0 ⟨none, none⟩ ds).2.1.best = some b →
      b ∈ ds ∧ m0 < b ∧ ∀ d ∈ ds, d ≤ b) ∧
    (∀ k, k < ds.length →
      (train_run m0 ⟨none, none⟩ ds).2.2[k]? =
        some (decide (runningMax m0 (ds.take k) < ds.getD k 0))) := by
  refine ⟨?_, ?_, fun k hk => train_run_flags m0 ⟨none, none⟩ ds k hk⟩
  · rw [train_run_best]
    by_cases h : ∃ d ∈ ds, m0 < d
    · rw [if_pos h]; simpa using h
    · rw [if_neg h]; simpa using h
  · intro b hb
    rw [train_run_best] at hb
    by_cases h : ∃ d ∈ ds, m0 < d
    · rw [if_pos h] at hb
      have hbe : b = runningMax m0 ds := by
        injection hb with h'; exact h'.symm
      subst hbe
      obtain ⟨d, hd, hlt⟩ := h
      refine ⟨?_, lt_of_lt_of_le hlt (mem_le_runningMax m0 ds d hd),
        mem_le_runningMax m0 ds⟩
      rcases runningMax_eq_or_mem m0 ds with he | he
      · exact absurd (lt_of_lt_of_le hlt ((mem_le_runningMax m0 ds d hd).trans he.le))
          (lt_irrefl m0)
      · exact he
    · rw [if_neg h] at hb
      exact absurd hb (by simp)

/-- C5 witness: a run with dices `[3, 1, 4]` from initial `max_dice = 2`. -/
theorem claim_C5_best_invariant_witness :
    ((train_run 2 ⟨none, none⟩ [3, 1, 4]).2.1.best.isSome ↔
      ∃ d ∈ [(3:ℚ), 1, 4], 2 < d) ∧
    (∀ b, (train_run 2 ⟨none, none⟩ [3, 1, 4]).2.1.best = some b →
      b ∈ [(3:ℚ), 1, 4] ∧ 2 < b ∧ ∀ d ∈ [(3:ℚ), 1, 4], d ≤ b) ∧
    (∀ k, k < ([(3:ℚ), 1, 4]).length →
      (train_run 2 ⟨none, none⟩ [3, 1, 4]).2.2[k]? =
        some (decide (runningMax 2 (([(3:ℚ), 1, 4]).take k) <
          ([(3:ℚ), 1, 4]).getD k 0))) :=
  claim_C5_best_invariant 2 [3, 1, 4]

/-! ## Claim C9: full checkpoint written before the best slot
(`Train.save_checkpoint`, solver.py lines 98–105)

`save_checkpoint` first calls `torch.save(state, pth_path)` and only then,
when `is_best`, `shutil.copyfile(pth_path, best_path)`.  The two calls are
modelled as an event trace; file-system replay shows the best slot's
content always comes from an already-completed full write. -/

/-- File-system events emitted by `save_checkpoint`. -/
inductive FsEvent (S : Type) where
  | writeFull (state : S)
  | copyToBest
  deriving DecidableEq

/-- `save_checkpoint(state, ..., is_best)`: write the full file, then copy
it to the best slot iff `is_best`. -/
def save_checkpoint_events {S : Type} (state : S) (is_best : Bool) :
    List (FsEvent S) :=
  FsEvent.writeFull state :: if is_best then [FsEvent.copyToBest] else []

/-- The two checkpoint files of one `(model_type, stage, index)` slot. -/
structure FsState (S : Type) where
  full : Option S
  best : Option S
  deriving DecidableEq

/-- Replay one file-system event. -/
def fsStep {S : Type} (fs : FsState S) : FsEvent S → FsState S
  | FsEvent.writeFull s => { fs with full := some s }
  | FsEvent.copyToBest => { fs with best := fs.full }

/-- Replay a trace of events. -/
def fsRun {S : Type} (fs : FsState S) (evs : List (FsEvent S)) : FsState S :=
  evs.foldl fsStep fs

/-- The event trace of a whole training run: one `save_checkpoint` call per
epoch, each with its state and `is_best` flag. -/
def run_events {S : Type} (saves : List (S × Bool)) : List (FsEvent S) :=
  (saves.map fun p => save_checkpoint_events p.1 p.2).flatten

lemma fsRun_save {S : Type} (fs : FsState S) (st : S) (b : Bool) :
    fsRun fs (save_checkpoint_events st b) =
      { full := some st, best := if b then some st else fs.best } := by
  cases b <;> rfl

lemma run_events_copy_pred {S : Type} (saves : List (S × Bool)) (k : ℕ) :
    (run_events saves)[k]? = some FsEvent.copyToBest →
      ∃ s, 0 < k ∧ (run_events saves)[k - 1]? = some (FsEvent.writeFull s) := by
  induction saves generalizing k with
  | nil => intro h; simp [run_events] at h
  | cons p rest ih =>
    intro h
    have hre : run_events (p :: rest) =
        save_checkpoint_events p.1 p.2 ++ run_events rest := by
      simp [run_events]
    rw [hre] at h ⊢
    cases hb : p.2 with
    | true =>
      rw [hb] at h
      have hbl : save_checkpoint_events p.1 true ++ run_events rest =
          FsEvent.writeFull p.1 :: FsEvent.copyToBest :: run_events rest := rfl
      rw [hbl] at h ⊢
      match k, h with
      | 0, h => simp at h
      | 1, _ => exact ⟨p.1, Nat.zero_lt_one, rfl⟩
      | (j + 2), h =>
        have h' : (run_events rest)[j]? = some FsEvent.copyToBest := by
          simpa using h
        obtain ⟨s, hj, hw⟩ := ih j h'
        obtain ⟨j', rfl⟩ : ∃ j', j = j' + 1 := ⟨j - 1, by omega⟩
        refine ⟨s, by omega, ?_⟩
        have he : j' + 1 + 2 - 1 = j' + 2 := by omega
        rw [he]
        simpa using hw
    | false =>
      rw [hb] at h
      have hbl : save_checkpoint_events p.1 false ++ run_events rest =
          FsEvent.writeFull p.1 :: run_events rest := rfl
      rw [hbl] at h ⊢
      match k, h with
      | 0, h => simp at h
      | (j + 1), h =>
        have h' : (run_events rest)[j]? = some FsEvent.copyToBest := by
          simpa using h
        obtain ⟨s, hj, hw⟩ := ih j h'
        obtain ⟨j', rfl⟩ : ∃ j', j = j' + 1 := ⟨j - 1, by omega⟩
        refine ⟨s, by omega, ?_⟩
        have he : j' + 1 + 1 - 1 = j' + 1 := by omega
        rw [he]
        simpa using hw

lemma fsRun_full_origin {S : Type} (p : List (FsEvent S)) :
    (fsRun ⟨none, none⟩ p).full = none ∨
      (∃ s, (fsRun ⟨none, none⟩ p).full = some s ∧ FsEvent.writeFull s ∈ p) := by
  induction p using List.reverseRecOn with
  | nil => exact Or.inl rfl
  | append_singleton l e ih =>
    have hstep : fsRun (⟨none, none⟩ : FsState S) (l ++ [e]) =
        fsStep (fsRun ⟨none, none⟩ l) e := by
      simp [fsRun]
    cases e with
    | writeFull s =>
      refine Or.inr ⟨s, ?_, by simp⟩
      rw [hstep]; rfl
    | copyToBest =>
      rw [hstep]
      rcases ih with h | ⟨s, hs, hmem⟩
      · exact Or.inl (by simp [fsStep, h])
      · exact Or.inr ⟨s, by simp [fsStep, hs], by simp [hmem]⟩

lemma fsRun_best_from_write {S : Type} (p : List (FsEvent S)) :
    (fsRun ⟨none, none⟩ p).best = none ∨
      (∃ s, (fsRun ⟨none, none⟩ p).best = some s ∧ FsEvent.writeFull s ∈ p) := by
  induction p using List.reverseRecOn with
  | nil => exact Or.inl rfl
  | append_singleton l e ih =>
    have hstep : fsRun (⟨none, none⟩ : FsState S) (l ++ [e]) =
        fsStep (fsRun ⟨none, none⟩ l) e := by
      simp [fsRun]
    cases e with
    | writeFull s =>
      rw [hstep]
      rcases ih with h | ⟨t, ht, hmem⟩
      · exact Or.inl (by simp [fsStep, h])
      · exact Or.inr ⟨t, by simp [fsStep, ht], by simp [hmem]⟩
    | copyToBest =>
      rw [hstep]
      rcases fsRun_full_origin l with h | ⟨s, hs, hmem⟩
      · exact Or.inl (by simp [fsStep, h])
      · exact Or.inr ⟨s, by simp [fsStep, hs], by simp [hmem]⟩

/-- C9 (confirmed): in a run's event trace (i) every best-slot copy event is
immediately preceded by a completed full-checkpoint write; (ii) one
`save_checkpoint` call writes the full file first and the best slot becomes
a copy of exactly that just-written state when `is_best`; (iii) replaying
any prefix of the trace from an empty slot, a non-empty best file always
holds a state for which a full write appears earlier in that prefix. -/
theorem claim_C9_write_before_best {S : Type} (saves : List (S × Bool))
    (fs : FsState S) (st : S) (b : Bool) :
    (∀ k, (run_events saves)[k]? = some FsEvent.copyToBest →
      ∃ s, 0 < k ∧ (run_events saves)[k - 1]? = some (FsEvent.writeFull s)) ∧
    (fsRun fs (save_checkpoint_events st b) =
      { full := some st, best := if b then some st else fs.best }) ∧
    (∀ p q, run_events saves = p ++ q →
      (fsRun ⟨none, none⟩ p).best = none ∨
        ∃ s, (fsRun ⟨none, none⟩ p).best = some s ∧ FsEvent.writeFull s ∈ p) :=
  ⟨fun k => run_events_copy_pred saves k, fsRun_save fs st b,
    fun p _ _ => fsRun_best_from_write p⟩

/-- C9 witness: a two-epoch run whose second epoch is marked best. -/
theorem claim_C9_write_before_best_witness :
    (∀ k, (run_events [((0 : ℕ), false), (1, true)])[k]? =
        some FsEvent.copyToBest →
      ∃ s, 0 < k ∧ (run_events [((0 : ℕ), false), (1, true)])[k - 1]? =
        some (FsEvent.writeFull s)) ∧
    (fsRun ⟨none, none⟩ (save_checkpoint_events (5 : ℕ) true) =
      { full := some 5, best := if true then some 5 else none }) ∧
    (∀ p q, run_events [((0 : ℕ), false), (1, true)] = p ++ q →
      (fsRun ⟨none, none⟩ p).best = none ∨
        ∃ s, (fsRun ⟨none, none⟩ p).best = some s ∧ FsEvent.writeFull s ∈ p) :=
  claim_C9_write_before_best [((0 : ℕ), false), (1, true)] ⟨none, none⟩ 5 true

/-! ## Claims C6 and C10: stage-2 gradient accumulation
(`Train.train_stage2`, solver.py lines 238–269, and `Train.reset_grad`,
lines 94–96)

The loop is modelled symbolically: a gradient is named by its
`(epoch, batch)` pair; the gradient buffer is the list of gradients
accumulated since the last reset, and an optimizer step records the buffer
it committed.  `N = epoch_stage2`, `K = epoch_stage2_accumulation`,
`acc = accumulation_steps`, `B` = number of batches per epoch.  Epoch
numbers are the 1-based values produced by `epoch += 1`. -/

/-- The gradient buffer and the list of committed optimizer steps. -/
structure GradState where
  grad : List (ℕ × ℕ)
  steps : List (List (ℕ × ℕ))
  deriving DecidableEq

/-- One batch of the stage-2 inner loop: standard path
(`epoch <= epoch_stage2 - epoch_stage2_accumulation`) resets, backpropagates
and steps; accumulation path backpropagates and steps only when
`(i + 1) % accumulation_steps == 0`, then resets. -/
def stage2_batch (N K acc : ℕ) (e i : ℕ) (s : GradState) : GradState :=
  if e ≤ N - K then
    { grad := [(e, i)], steps := s.steps ++ [[(e, i)]] }
  else
    let g := s.grad ++ [(e, i)]
    if (i + 1) % acc = 0 then { grad := [], steps := s.steps ++ [g] }
    else { grad := g, steps := s.steps }

/-- One stage-2 epoch: `self.reset_grad()` at the top (line 243), then the
batch loop over `i = 0, …, B - 1`. -/
def stage2_epoch (N K acc B : ℕ) (e : ℕ) (s : GradState) : GradState :=
  (List.range B).foldl (fun st i => stage2_batch N K acc e i st)
    { grad := [], steps := s.steps }

/-- The whole stage-2 epoch loop, `for epoch in range(start_epoch, N)` with
`epoch += 1` making epochs 1-based. -/
def stage2_run (N K acc B start_epoch : ℕ) : GradState :=
  (((List.range (N - start_epoch)).map fun j => start_epoch + j + 1).foldl
    fun s e => stage2_epoch N K acc B e s) { grad := [], steps := [] }

/-- The optimizer steps one epoch commits: one single-gradient step per batch
in the standard phase; one step per completed window of `acc` consecutive
batches in the accumulation phase. -/
def epochSteps (N K acc B : ℕ) (e : ℕ) : List (List (ℕ × ℕ)) :=
  if e ≤ N - K then (List.range B).map fun i => [(e, i)]
  else (List.range (B / acc)).map fun w =>
    (List.range acc).map fun j => (e, w * acc + j)

lemma succ_mod_div_of_ne (acc i : ℕ) (hacc : 0 < acc)
    (hne : (i + 1) % acc ≠ 0) :
    (i + 1) % acc = i % acc + 1 ∧ (i + 1) / acc = i / acc := by
  have hr : i % acc < acc := Nat.mod_lt i hacc
  have hi : acc * (i / acc) + i % acc = i := Nat.div_add_mod i acc
  rcases Nat.lt_or_ge (i % acc + 1) acc with hlt | hge
  · have h := (Nat.div_mod_unique hacc).mpr
      (⟨by omega, hlt⟩ : (i % acc + 1) + acc * (i / acc) = i + 1 ∧ i % acc + 1 < acc)
    exact ⟨h.2, h.1⟩
  · exfalso
    have heq : i % acc + 1 = acc := by omega
    have hmul : acc * (i / acc + 1) = acc * (i / acc) + acc := Nat.mul_succ acc (i / acc)
    have h := (Nat.div_mod_unique hacc).mpr
      (⟨by omega, hacc⟩ : 0 + acc * (i / acc + 1) = i + 1 ∧ 0 < acc)
    exact hne h.2

lemma succ_mod_div_of_eq (acc i : ℕ) (hacc : 0 < acc)
    (he : (i + 1) % acc = 0) :
    i % acc = acc - 1 ∧ (i + 1) / acc = i / acc + 1 := by
  have hr : i % acc < acc := Nat.mod_lt i hacc
  have hi : acc * (i / acc) + i % acc = i := Nat.div_add_mod i acc
  rcases Nat.lt_or_ge (i % acc + 1) acc with hlt | hge
  · exfalso
    have h := (Nat.div_mod_unique hacc).mpr
      (⟨by omega, hlt⟩ : (i % acc + 1) + acc * (i / acc) = i + 1 ∧ i % acc + 1 < acc)
    omega
  · have heq : i % acc + 1 = acc := by omega
    have hmul : acc * (i / acc + 1) = acc * (i / acc) + acc := Nat.mul_succ acc (i / acc)
    have h := (Nat.div_mod_unique hacc).mpr
      (⟨by omega, hacc⟩ : 0 + acc * (i / acc + 1) = i + 1 ∧ 0 < acc)
    exact ⟨by omega, h.1⟩

/-- Closed form of the batch loop in a standard-phase epoch. -/
lemma std_epoch_fold (N K acc : ℕ) (e : ℕ) (he : e ≤ N - K) (i : ℕ)
    (S : List (List (ℕ × ℕ))) (g0 : List (ℕ × ℕ)) :
    (List.range i).foldl (fun st x => stage2_batch N K acc e x st)
        { grad := g0, steps := S } =
      { grad := if i = 0 then g0 else [(e, i - 1)],
        steps := S ++ (List.range i).map fun x => [(e, x)] } := by
  induction i with
  | zero => simp
  | succ i ih =>
    rw [List.range_succ, List.foldl_append, ih]
    simp only [List.foldl_cons, List.foldl_nil, stage2_batch, if_pos he]
    simp [List.map_append, List.append_assoc]

/-- Closed form of the batch loop in an accumulation-phase epoch: the buffer
holds the current partial window, the committed steps are the completed
windows. -/
lemma acc_epoch_fold (N K acc : ℕ) (e : ℕ) (he : ¬e ≤ N - K) (hacc : 0 < acc)
    (i : ℕ) (S : List (List (ℕ × ℕ))) :
    (List.range i).foldl (fun st x => stage2_batch N K acc e x st)
        { grad := [], steps := S } =
      { grad := (List.range (i % acc)).map fun j => (e, (i / acc) * acc + j),
        steps := S ++ (List.range (i / acc)).map fun w =>
          (List.range acc).map fun j => (e, w * acc + j) } := by
  induction i with
  | zero => simp
  | succ i ih =>
    rw [List.range_succ, List.foldl_append, ih]
    simp only [List.foldl_cons, List.foldl_nil, stage2_batch, if_neg he]
    have hi : acc * (i / acc) + i % acc = i := Nat.div_add_mod i acc
    have hcm : acc * (i / acc) = (i / acc) * acc := Nat.mul_comm acc (i / acc)
    have hsplit : ∀ q n : ℕ,
        (List.range (n + 1)).map (fun j => ((e, q + j) : ℕ × ℕ)) =
          ((List.range n).map fun j => (e, q + j)) ++ [(e, q + n)] := by
      intro q n
      rw [List.range_succ, List.map_append]
      simp
    by_cases hz : (i + 1) % acc = 0
    · obtain ⟨hm, hd⟩ := succ_mod_div_of_eq acc i hacc hz
      have hlast : (i / acc) * acc + (acc - 1) = i := by omega
      have hwin : ((List.range (i % acc)).map fun j => (e, (i / acc) * acc + j))
            ++ [((e, i) : ℕ × ℕ)] =
          (List.range acc).map fun j => (e, (i / acc) * acc + j) := by
        have hs := hsplit (i / acc * acc) (acc - 1)
        rw [show acc - 1 + 1 = acc by omega] at hs
        rw [hm, hs, hlast]
      rw [if_pos hz, hz, hd, List.range_succ, List.map_append]
      simp only [List.map_cons, List.map_nil, List.range_zero]
      rw [hwin]
      simp [List.append_assoc]
    · obtain ⟨hm, hd⟩ := succ_mod_div_of_ne acc i hacc hz
      have hlast : (i / acc) * acc + i % acc = i := by omega
      rw [if_neg hz, hm, hd, List.range_succ, List.map_append]
      simp [hlast]

lemma stage2_epoch_steps (N K acc B e : ℕ) (hacc : 0 < acc) (s : GradState) :
    (stage2_epoch N K acc B e s).steps = s.steps ++ epochSteps N K acc B e := by
  unfold stage2_epoch
  by_cases he : e ≤ N - K
  · rw [std_epoch_fold N K acc e he B s.steps []]
    simp [epochSteps, he]
  · rw [acc_epoch_fold N K acc e he hacc B s.steps]
    simp [epochSteps, he]

lemma run_fold_steps (N K acc B : ℕ) (hacc : 0 < acc) (epochs : List ℕ)
    (s : GradState) :
    (epochs.foldl (fun st e => stage2_epoch N K acc B e st) s).steps =
      s.steps ++ (epochs.map (epochSteps N K acc B)).flatten := by
  induction epochs generalizing s with
  | nil => simp
  | cons e es ih =>
    rw [List.foldl_cons, ih, stage2_epoch_steps N K acc B e hacc s]
    simp [List.append_assoc]

lemma stage2_run_steps (N K acc B start : ℕ) (hacc : 0 < acc) :
    (stage2_run N K acc B start).steps =
      (((List.range (N - start)).map fun j => start + j + 1).map
        (epochSteps N K acc B)).flatten := by
  unfold stage2_run
  rw [run_fold_steps N K acc B hacc]
  simp

lemma epochSteps_same_epoch (N K acc B e : ℕ) :
    ∀ s ∈ epochSteps N K acc B e, ∀ x ∈ s, x.1 = e := by
  intro s hs x hx
  unfold epochSteps at hs
  by_cases he : e ≤ N - K
  · rw [if_pos he] at hs
    obtain ⟨i, _, rfl⟩ := List.mem_map.mp hs
    rw [List.mem_singleton.mp hx]
  · rw [if_neg he] at hs
    obtain ⟨w, _, rfl⟩ := List.mem_map.mp hs
    obtain ⟨j, _, rfl⟩ := List.mem_map.mp hx
    rfl

lemma run_steps_mem (N K acc B : ℕ) (hacc : 0 < acc) (s : List (ℕ × ℕ)) :
    s ∈ (stage2_run N K acc B 0).steps ↔
      ∃ e, 1 ≤ e ∧ e ≤ N ∧ s ∈ epochSteps N K acc B e := by
  rw [stage2_run_steps N K acc B 0 hacc, List.mem_flatten]
  constructor
  · rintro ⟨l, hl, hs⟩
    obtain ⟨e, he, rfl⟩ := List.mem_map.mp hl
    obtain ⟨j, hj, rfl⟩ := List.mem_map.mp he
    rw [List.mem_range] at hj
    exact ⟨0 + j + 1, by omega, by omega, hs⟩
  · rintro ⟨e, h1, h2, hs⟩
    refine ⟨epochSteps N K acc B e, List.mem_map.mpr ⟨e, ?_, rfl⟩, hs⟩
    refine List.mem_map.mpr ⟨e - 1, ?_, by omega⟩
    rw [List.mem_range]
    omega

lemma range_getLast? (n : ℕ) (h : 0 < n) :
    (List.range n).getLast? = some (n - 1) := by
  rw [show n = (n - 1) + 1 by omega, List.range_succ, List.getLast?_concat]
  simp

lemma window_getLast? (e w acc : ℕ) (hacc : 0 < acc) :
    ((List.range acc).map fun j => ((e, w * acc + j) : ℕ × ℕ)).getLast? =
      some (e, w * acc + (acc - 1)) := by
  rw [List.getLast?_map, range_getLast? acc hacc]
  rfl

/-- C6 (confirmed): in stage 2, every epoch numbered at most
`epoch_stage2 - epoch_stage2_accumulation` commits one optimizer step per
batch, each containing exactly that batch's gradient (gradients are cleared
before each backward pass); every later epoch commits one step per completed
window of `accumulation_steps` consecutive batches of that same epoch, and
every committed step's gradients come from a single epoch (no accumulation
window spans an epoch boundary). -/
theorem claim_C6_gradient_accumulation (N K acc B : ℕ) (hacc : 0 < acc) :
    ((stage2_run N K acc B 0).steps =
      (((List.range N).map fun j => j + 1).map (epochSteps N K acc B)).flatten) ∧
    (∀ e, e ≤ N - K →
      epochSteps N K acc B e = (List.range B).map fun i => [(e, i)]) ∧
    (∀ e, ¬e ≤ N - K →
      epochSteps N K acc B e = (List.range (B / acc)).map fun w =>
        (List.range acc).map fun j => (e, w * acc + j)) ∧
    (∀ s ∈ (stage2_run N K acc B 0).steps, ∀ x ∈ s, ∀ y ∈ s, x.1 = y.1) := by
  refine ⟨?_, fun e he => by simp [epochSteps, he],
    fun e he => by simp [epochSteps, he], ?_⟩
  · rw [stage2_run_steps N K acc B 0 hacc]
    simp
  · intro s hs x hx y hy
    obtain ⟨e, _, _, hse⟩ := (run_steps_mem N K acc B hacc s).mp hs
    rw [epochSteps_same_epoch N K acc B e s hse x hx,
      epochSteps_same_epoch N K acc B e s hse y hy]

/-- C6 witness: `N = 3`, `K = 2`, `acc = 2`, `B = 5`. -/
theorem claim_C6_gradient_accumulation_witness :
    ((stage2_run 3 2 2 5 0).steps =
      (((List.range 3).map fun j => j + 1).map (epochSteps 3 2 2 5)).flatten) ∧
    (∀ e, e ≤ 3 - 2 →
      epochSteps 3 2 2 5 e = (List.range 5).map fun i => [(e, i)]) ∧
    (∀ e, ¬e ≤ 3 - 2 →
      epochSteps 3 2 2 5 e = (List.range (5 / 2)).map fun w =>
        (List.range 2).map fun j => (e, w * 2 + j)) ∧
    (∀ s ∈ (stage2_run 3 2 2 5 0).steps, ∀ x ∈ s, ∀ y ∈ s, x.1 = y.1) :=
  claim_C6_gradient_accumulation 3 2 2 5 (by decide)

/-- C10 (confirmed): in an accumulation-phase epoch `e`, an optimizer step is
committed ending at batch `i` exactly when `(i + 1)` is divisible by
`accumulation_steps`, and batch `i`'s gradient reaches some optimizer step
exactly when `i < acc * (B / acc)` — the trailing `B % acc` batches of the
epoch never contribute to any step (their gradients are zeroed by the
`reset_grad` at the next epoch's start or discarded at the end of stage 2). -/
theorem claim_C10_trailing_gradients (N K acc B : ℕ) (hacc : 0 < acc)
    (e : ℕ) (he1 : N - K < e) (he2 : e ≤ N) :
    (∀ i, i < B →
      ((∃ s ∈ (stage2_run N K acc B 0).steps, s.getLast? = some (e, i)) ↔
        (i + 1) % acc = 0)) ∧
    (∀ i, i < B →
      ((∃ s ∈ (stage2_run N K acc B 0).steps, (e, i) ∈ s) ↔
        i < acc * (B / acc))) := by
  have hne : ¬e ≤ N - K := by omega
  constructor
  · intro i hi
    constructor
    · rintro ⟨s, hs, hlast⟩
      obtain ⟨e', h1, h2, hse⟩ := (run_steps_mem N K acc B hacc s).mp hs
      unfold epochSteps at hse
      by_cases he' : e' ≤ N - K
      · rw [if_pos he'] at hse
        obtain ⟨i', _, rfl⟩ := List.mem_map.mp hse
        have : e' = e := by
          have := List.getLast?_concat (l := ([] : List (ℕ × ℕ))) (a := ((e', i') : ℕ × ℕ))
          simp at hlast
          omega
        omega
      · rw [if_neg he'] at hse
        obtain ⟨w, hw, rfl⟩ := List.mem_map.mp hse
        rw [window_getLast? e' w acc hacc] at hlast
        have he'' : e' = e ∧ w * acc + (acc - 1) = i := by
          have h := Option.some.inj hlast
          exact ⟨congrArg Prod.fst h, congrArg Prod.snd h⟩
        obtain ⟨rfl, hwi⟩ := he''
        have : i + 1 = (w + 1) * acc := by
          have hmul : (w + 1) * acc = w * acc + acc := Nat.succ_mul w acc
          omega
        rw [this]
        exact Nat.mul_mod_left (w + 1) acc
    · intro hz
      have hdvd : acc ∣ i + 1 := Nat.dvd_of_mod_eq_zero hz
      have hq : acc * ((i + 1) / acc) = i + 1 := Nat.mul_div_cancel' hdvd
      set q := (i + 1) / acc with hqdef
      have hq1 : 1 ≤ q := by
        rcases Nat.eq_zero_or_pos q with h0 | h1
        · rw [h0] at hq; omega
        · exact h1
      have hqB : q ≤ B / acc := by
        rw [Nat.le_div_iff_mul_le hacc]
        have : q * acc = acc * q := Nat.mul_comm q acc
        omega
      refine ⟨(List.range acc).map fun j => (e, (q - 1) * acc + j), ?_, ?_⟩
      · rw [run_steps_mem N K acc B hacc]
        refine ⟨e, by omega, he2, ?_⟩
        unfold epochSteps
        rw [if_neg hne]
        exact List.mem_map.mpr ⟨q - 1, List.mem_range.mpr (by omega), rfl⟩
      · rw [window_getLast? e (q - 1) acc hacc]
        have h2 : (q - 1 + 1) * acc = (q - 1) * acc + 1 * acc :=
          Nat.add_mul (q - 1) 1 acc
        rw [show q - 1 + 1 = q by omega, one_mul] at h2
        have hqacc : q * acc = acc * q := Nat.mul_comm q acc
        have hieq : (q - 1) * acc + (acc - 1) = i := by omega
        rw [hieq]
  · intro i hi
    constructor
    · rintro ⟨s, hs, hmem⟩
      obtain ⟨e', h1, h2, hse⟩ := (run_steps_mem N K acc B hacc s).mp hs
      unfold epochSteps at hse
      by_cases he' : e' ≤ N - K
      · rw [if_pos he'] at hse
        obtain ⟨i', _, rfl⟩ := List.mem_map.mp hse
        have : ((e, i) : ℕ × ℕ) = (e', i') := List.mem_singleton.mp hmem
        have : e = e' := congrArg Prod.fst this
        omega
      · rw [if_neg he'] at hse
        obtain ⟨w, hw, rfl⟩ := List.mem_map.mp hse
        obtain ⟨j, hj, hji⟩ := List.mem_map.mp hmem
        rw [List.mem_range] at hw hj
        have hieq : w * acc + j = i := congrArg Prod.snd hji
        have hwB : w + 1 ≤ B / acc := hw
        have hle : (w + 1) * acc ≤ (B / acc) * acc :=
          Nat.mul_le_mul_right acc hwB
        have hmul : (w + 1) * acc = w * acc + acc := Nat.succ_mul w acc
        have hcomm : (B / acc) * acc = acc * (B / acc) := Nat.mul_comm (B / acc) acc
        omega
    · intro hlt
      have hwlt : i / acc < B / acc := by
        by_contra hge
        have hge' : B / acc ≤ i / acc := by omega
        have : (B / acc) * acc ≤ (i / acc) * acc := Nat.mul_le_mul_right acc hge'
        have hdm : acc * (i / acc) + i % acc = i := Nat.div_add_mod i acc
        have hcomm : (i / acc) * acc = acc * (i / acc) := Nat.mul_comm (i / acc) acc
        have hcomm2 : (B / acc) * acc = acc * (B / acc) := Nat.mul_comm (B / acc) acc
        omega
      have hdm : acc * (i / acc) + i % acc = i := Nat.div_add_mod i acc
      have hcomm : (i / acc) * acc = acc * (i / acc) := Nat.mul_comm (i / acc) acc
      refine ⟨(List.range acc).map fun j => (e, (i / acc) * acc + j), ?_, ?_⟩
      · rw [run_steps_mem N K acc B hacc]
        refine ⟨e, by omega, he2, ?_⟩
        unfold epochSteps
        rw [if_neg hne]
        exact List.mem_map.mpr ⟨i / acc, List.mem_range.mpr hwlt, rfl⟩
      · refine List.mem_map.mpr ⟨i % acc, List.mem_range.mpr (Nat.mod_lt i hacc), ?_⟩
        have : (i / acc) * acc + i % acc = i := by omega
        rw [this]

/-- C10 witness: `N = 3`, `K = 2`, `acc = 2`, `B = 5`, epoch `e = 2`. -/
theorem claim_C10_trailing_gradients_witness :
    (3 : ℕ) - 2 < 2 ∧ (2 : ℕ) ≤ 3 ∧
    ((∀ i, i < 5 →
      ((∃ s ∈ (stage2_run 3 2 2 5 0).steps, s.getLast? = some (2, i)) ↔
        (i + 1) % 2 = 0)) ∧
    (∀ i, i < 5 →
      ((∃ s ∈ (stage2_run 3 2 2 5 0).steps, ((2 : ℕ), i) ∈ s) ↔
        i < 2 * (5 / 2)))) :=
  ⟨by decide, by decide,
    claim_C10_trailing_gradients 3 2 2 5 (by decide) 2 (by decide) (by decide)⟩

/-! ## Claim C7: two-phase threshold search
(`Train.choose_threshold`, solver.py lines 366–416)

Phase 1: `thrs_ = np.arange(0.1, 1, 0.1)` (the nine thresholds
`0.1, …, 0.9`), mean validation dice at each, arg-max `t0`
(`np.argmax` takes the first maximum).  Phase 2:
`thrs = np.arange(t0 - 0.05, t0 + 0.05, 0.01)` (ten thresholds),
same mean dice (via `dice_overall`, hence the same 0/0 special case),
returning `(dices.max(), thrs[dices.argmax()])`.  The validation set is a
list of batches, each a pair of sigmoid network outputs and masks. -/

/-- `tensor.mean()` over a flat list. -/
def listMean (l : List ℚ) : ℚ := l.sum / l.length

/-- One batch of the search loop: `preds = (net_output > th).float()`, then
`self.dice_overall(preds, masks).mean()`. -/
def batchMeanDice (outs masks : List (List ℚ)) (th : ℚ) : ℚ :=
  listMean (dice_overall (outs.map (binarize th)) masks)

/-- `sum(tmp) / len(tmp)`: the mean validation dice at threshold `th`. -/
def meanDiceAt (data : List (List (List ℚ) × List (List ℚ))) (th : ℚ) : ℚ :=
  listMean (data.map fun b => batchMeanDice b.1 b.2 th)

/-- `np.arange(0.1, 1, 0.1)`: the phase-1 threshold grid. -/
def phase1_thrs : List ℚ := (List.range 9).map fun k : ℕ => ((k : ℚ) + 1) / 10

/-- `np.arange(best_thrs_ - 0.05, best_thrs_ + 0.05, 0.01)`: the phase-2
threshold grid. -/
def phase2_thrs (t0 : ℚ) : List ℚ :=
  (List.range 10).map fun k : ℕ => t0 - 5 / 100 + (k : ℚ) / 100

/-- `np.max` over a nonempty list. -/
def maxList : List ℚ → ℚ
  | [] => 0
  | [x] => x
  | x :: y :: t => max x (maxList (y :: t))

/-- `np.argmax`: the index of the first occurrence of the maximum. -/
def idxOfMax : List ℚ → ℕ
  | [] => 0
  | [_] => 0
  | x :: y :: t => if maxList (y :: t) ≤ x then 0 else idxOfMax (y :: t) + 1

/-- `Train.choose_threshold`: coarse grid, arg-max, fine grid around it,
returning `(best_score, best_threshold)`. -/
def choose_threshold (data : List (List (List ℚ) × List (List ℚ))) : ℚ × ℚ :=
  let dices1 := phase1_thrs.map (meanDiceAt data)
  let best_thrs1 := phase1_thrs.getD (idxOfMax dices1) 0
  let thrs := phase2_thrs best_thrs1
  let dices := thrs.map (meanDiceAt data)
  (maxList dices, thrs.getD (idxOfMax dices) 0)

lemma le_maxList (l : List ℚ) : ∀ x ∈ l, x ≤ maxList l := by
  induction l with
  | nil => intro x hx; simp at hx
  | cons a t ih =>
    intro x hx
    cases t with
    | nil =>
      rw [List.mem_singleton.mp hx]
      simp [maxList]
    | cons b t2 =>
      rcases List.mem_cons.mp hx with rfl | hx'
      · simp [maxList]
      · exact le_trans (ih x hx') (by simp [maxList])

lemma maxList_mem (l : List ℚ) (h : l ≠ []) : maxList l ∈ l := by
  induction l with
  | nil => exact absurd rfl h
  | cons a t ih =>
    cases t with
    | nil => simp [maxList]
    | cons b t2 =>
      rcases max_cases a (maxList (b :: t2)) with ⟨he, _⟩ | ⟨he, _⟩
      · simp [maxList, he]
      · have : maxList (b :: t2) ∈ b :: t2 := ih (by simp)
        simp only [maxList, he]
        exact List.mem_cons_of_mem a this

lemma idxOfMax_lt (l : List ℚ) (h : l ≠ []) : idxOfMax l < l.length := by
  induction l with
  | nil => exact absurd rfl h
  | cons a t ih =>
    cases t with
    | nil => simp [idxOfMax]
    | cons b t2 =>
      by_cases hle : maxList (b :: t2) ≤ a
      · simp [idxOfMax, hle]
      · have h' := ih (by simp)
        simp only [idxOfMax, if_neg hle, List.length_cons] at h' ⊢
        omega

lemma getD_idxOfMax (l : List ℚ) (h : l ≠ []) :
    l.getD (idxOfMax l) 0 = maxList l := by
  induction l with
  | nil => exact absurd rfl h
  | cons a t ih =>
    cases t with
    | nil => simp [idxOfMax, maxList]
    | cons b t2 =>
      by_cases hle : maxList (b :: t2) ≤ a
      · simp [idxOfMax, maxList, hle, max_eq_left hle]
      · have := ih (by simp)
        simp only [idxOfMax, if_neg hle, maxList, List.getD_cons_succ]
        rw [this, max_eq_right (le_of_not_le hle)]

lemma getD_map_of_lt (f : ℚ → ℚ) (l : List ℚ) (i : ℕ) (h : i < l.length) :
    (l.map f).getD i 0 = f (l.getD i 0) := by
  rw [List.getD_eq_getElem _ _ (by simpa using h), List.getD_eq_getElem _ _ h,
    List.getElem_map]

lemma getD_mem_of_lt (l : List ℚ) (i : ℕ) (h : i < l.length) :
    l.getD i 0 ∈ l := by
  rw [List.getD_eq_getElem _ _ h]
  exact List.getElem_mem h

lemma phase1_thrs_ne_nil : phase1_thrs ≠ [] := by
  unfold phase1_thrs
  simp [List.range_succ]

lemma phase2_thrs_ne_nil (t0 : ℚ) : phase2_thrs t0 ≠ [] := by
  unfold phase2_thrs
  simp [List.range_succ]

/-- The arg-max threshold of a grid attains the maximal mean dice on it. -/
lemma argmax_spec (data : List (List (List ℚ) × List (List ℚ)))
    (thrs : List ℚ) (hne : thrs ≠ []) :
    thrs.getD (idxOfMax (thrs.map (meanDiceAt data))) 0 ∈ thrs ∧
    meanDiceAt data (thrs.getD (idxOfMax (thrs.map (meanDiceAt data))) 0) =
      maxList (thrs.map (meanDiceAt data)) ∧
    ∀ t ∈ thrs, meanDiceAt data t ≤ maxList (thrs.map (meanDiceAt data)) := by
  have hmne : thrs.map (meanDiceAt data) ≠ [] := by
    simpa using hne
  have hidx : idxOfMax (thrs.map (meanDiceAt data)) < thrs.length := by
    have := idxOfMax_lt _ hmne
    simpa using this
  refine ⟨getD_mem_of_lt thrs _ hidx, ?_, ?_⟩
  · rw [← getD_map_of_lt (meanDiceAt data) thrs _ hidx]
    exact getD_idxOfMax _ hmne
  · intro t ht
    exact le_maxList _ _ (List.mem_map.mpr ⟨t, ht, rfl⟩)

/-- C7 (confirmed): `choose_threshold` selects a phase-1 arg-max `t0` over
the grid `{0.1, …, 0.9}` (step 0.1), then evaluates the same mean
validation dice (built on `dice_overall`, hence with its 0/0 special case)
on the grid `[t0 - 0.05, t0 + 0.05)` with step 0.01, and returns the pair
(maximal phase-2 mean dice, a phase-2 threshold attaining it). -/
theorem claim_C7_choose_threshold (data : List (List (List ℚ) × List (List ℚ))) :
    ∃ t0 ∈ phase1_thrs,
      (∀ t ∈ phase1_thrs, meanDiceAt data t ≤ meanDiceAt data t0) ∧
      (choose_threshold data).2 ∈ phase2_thrs t0 ∧
      (choose_threshold data).1 = meanDiceAt data (choose_threshold data).2 ∧
      (∀ t ∈ phase2_thrs t0, meanDiceAt data t ≤ (choose_threshold data).1) ∧
      (∀ t, t ∈ phase1_thrs ↔ ∃ k : ℕ, 1 ≤ k ∧ k ≤ 9 ∧ t = (k : ℚ) / 10) ∧
      (∀ t, t ∈ phase2_thrs t0 ↔
        (t0 - 5 / 100 ≤ t ∧ t < t0 + 5 / 100 ∧
          ∃ k : ℕ, t = t0 - 5 / 100 + (k : ℚ) / 100)) := by
  obtain ⟨h1mem, h1max, h1all⟩ := argmax_spec data phase1_thrs phase1_thrs_ne_nil
  set t0 := phase1_thrs.getD (idxOfMax (phase1_thrs.map (meanDiceAt data))) 0
    with ht0
  obtain ⟨h2mem, h2max, h2all⟩ := argmax_spec data (phase2_thrs t0)
    (phase2_thrs_ne_nil t0)
  have hch : choose_threshold data =
      (maxList ((phase2_thrs t0).map (meanDiceAt data)),
        (phase2_thrs t0).getD
          (idxOfMax ((phase2_thrs t0).map (meanDiceAt data))) 0) := rfl
  refine ⟨t0, h1mem, ?_, ?_, ?_, ?_, ?_, ?_⟩
  · intro t ht
    rw [h1max]
    exact h1all t ht
  · rw [hch]
    exact h2mem
  · rw [hch]
    exact h2max.symm
  · intro t ht
    rw [hch]
    exact h2all t ht
  · intro t
    unfold phase1_thrs
    constructor
    · intro h
      obtain ⟨k, hk, rfl⟩ := List.mem_map.mp h
      rw [List.mem_range] at hk
      refine ⟨k + 1, by omega, by omega, ?_⟩
      push_cast
      ring
    · rintro ⟨k, hk1, hk9, rfl⟩
      refine List.mem_map.mpr ⟨k - 1, List.mem_range.mpr (by omega), ?_⟩
      have hc : ((k - 1 : ℕ) : ℚ) = (k : ℚ) - 1 := by
        push_cast [hk1]
        ring
      rw [hc]
      ring
  · intro t
    unfold phase2_thrs
    constructor
    · intro h
      obtain ⟨k, hk, rfl⟩ := List.mem_map.mp h
      rw [List.mem_range] at hk
      have hkq : (k : ℚ) < 10 := by exact_mod_cast hk
      have hk0 : (0 : ℚ) ≤ (k : ℚ) := Nat.cast_nonneg k
      refine ⟨by linarith [div_nonneg hk0 (by norm_num : (0:ℚ) ≤ 100)], ?_, ⟨k, rfl⟩⟩
      have hdiv : (k : ℚ) / 100 < 10 / 100 := by
        rw [div_lt_div_iff (by norm_num) (by norm_num)]
        linarith
      linarith
    · rintro ⟨hlo, hhi, k, rfl⟩
      refine List.mem_map.mpr ⟨k, List.mem_range.mpr ?_, rfl⟩
      have hdiv : (k : ℚ) / 100 < 10 / 100 := by linarith
      have hmul : (k : ℚ) * 100 < 10 * 100 :=
        (div_lt_div_iff (by norm_num) (by norm_num)).mp hdiv
      have hkq : (k : ℚ) < 10 := by linarith
      exact_mod_cast hkq

/-- C7 witness: the search on an empty validation set (all mean dices 0). -/
theorem claim_C7_choose_threshold_witness :
    ∃ t0 ∈ phase1_thrs,
      (∀ t ∈ phase1_thrs, meanDiceAt [] t ≤ meanDiceAt [] t0) ∧
      (choose_threshold []).2 ∈ phase2_thrs t0 ∧
      (choose_threshold []).1 = meanDiceAt [] (choose_threshold []).2 ∧
      (∀ t ∈ phase2_thrs t0, meanDiceAt [] t ≤ (choose_threshold []).1) ∧
      (∀ t, t ∈ phase1_thrs ↔ ∃ k : ℕ, 1 ≤ k ∧ k ≤ 9 ∧ t = (k : ℚ) / 10) ∧
      (∀ t, t ∈ phase2_thrs t0 ↔
        (t0 - 5 / 100 ≤ t ∧ t < t0 + 5 / 100 ∧
          ∃ k : ℕ, t = t0 - 5 / 100 + (k : ℚ) / 100)) :=
  claim_C7_choose_threshold []

/-! ## Claim C8: finiteness of the loss library (`utils/loss.py`)

Float tensors are modelled as lists of reals; a non-finite float (NaN or
±Inf) is modelled as `none`.  `none` arises exactly where torch produces a
non-finite value from finite inputs: `mean` of an empty tensor (NaN),
division by zero (NaN or Inf), `log` of a non-positive argument (NaN or
minus infinity).
Every real number is finite, so a `some` result is a finite loss.
`gamma` exponents are naturals (the code uses 0 and 2). -/

/-- `torch.sigmoid`. -/
noncomputable def sigmoidR (x : ℝ) : ℝ := 1 / (1 + Real.exp (-x))

/-- `torch.clamp(x, lo, hi)`. -/
noncomputable def clampR (x lo hi : ℝ) : ℝ := max lo (min x hi)

/-- Division, `none` on a zero denominator. -/
noncomputable def divO (a b : ℝ) : Option ℝ := if b = 0 then none else some (a / b)

/-- `torch.log`, `none` on a non-positive argument. -/
noncomputable def logO (a : ℝ) : Option ℝ := if a ≤ 0 then none else some (Real.log a)

/-- `tensor.mean()`: NaN on an empty tensor. -/
noncomputable def meanO (l : List ℝ) : Option ℝ :=
  if l.isEmpty then none else some (l.sum / l.length)

/-- Collect elementwise results; any non-finite element poisons the tensor. -/
def seqO : List (Option ℝ) → Option (List ℝ)
  | [] => some []
  | none :: _ => none
  | some x :: t =>
    match seqO t with
    | some xs => some (x :: xs)
    | none => none

/-- `dice_loss(preds, trues)` (loss.py lines 43–58, `weight=None`,
`is_average=True`): per-sample `2 * (intersection + 1) /
(preds.sum(1) + trues.sum(1) + 1)`, then `scores.sum() / num` clamped to
`[0, 1]`. -/
noncomputable def dice_loss (preds trues : List (List ℝ)) : Option ℝ :=
  let scores := (preds.zip trues).map fun pt =>
    divO (2 * (((pt.1.zip pt.2).map fun a => a.1 * a.2).sum + 1))
      (pt.1.sum + pt.2.sum + 1)
  match seqO scores with
  | some ss => (divO ss.sum (preds.length : ℝ)).map fun s => clampR s 0 1
  | none => none

/-- `DiceLoss.forward` (lines 64–72): `1 - dice_loss(sigmoid(input), target)`. -/
noncomputable def DiceLoss (input target : List (List ℝ)) : Option ℝ :=
  (dice_loss (input.map (List.map sigmoidR)) target).map fun s => 1 - s

/-- `nn.BCEWithLogitsLoss` on flattened tensors: mean of
`-(t * log σ(x) + (1 - t) * log (1 - σ(x)))`. -/
noncomputable def BCEWithLogitsLoss (input target : List ℝ) : Option ℝ :=
  match seqO ((input.zip target).map fun a =>
    match logO (sigmoidR a.1), logO (1 - sigmoidR a.1) with
    | some lp, some ln => some (-(a.2 * lp + (1 - a.2) * ln))
    | _, _ => none) with
  | some ls => meanO ls
  | none => none

/-- `BCEDiceLoss.forward` (lines 74–81): BCE plus DiceLoss. -/
noncomputable def BCEDiceLoss (input target : List (List ℝ)) : Option ℝ :=
  match BCEWithLogitsLoss input.flatten target.flatten, DiceLoss input target with
  | some a, some b => some (a + b)
  | _, _ => none

/-- `FocalLoss.forward` (lines 126–164) with `alpha` given (the constructor
turns it into the pair `[alpha, 1 - alpha]`; with `alpha=None` line 162
raises a `TypeError`): clamp the sigmoid probabilities, split the pixels by
target class, average each side's focal term separately, and combine.  The
mean over an empty class side is NaN. -/
noncomputable def FocalLoss (gamma : ℕ) (alpha : ℝ) (input target : List ℝ) :
    Option ℝ :=
  let pt := input.map fun x => clampR (sigmoidR x) (1 / 10 ^ 8) (1 - 1 / 10 ^ 8)
  let ptpos := ((pt.zip target).filter fun a => a.2 = 1).map Prod.fst
  let ptneg := ((pt.zip target).filter fun a => a.2 = 0).map fun a => 1 - a.1
  let loss_p := ptpos.map fun p => -(clampR ((1 - p) ^ gamma) 0 2 * Real.log p)
  let loss_neg := ptneg.map fun p => -(clampR ((1 - p) ^ gamma) 0 2 * Real.log p)
  match meanO loss_p, meanO loss_neg with
  | some a, some b => some (alpha * a + (1 - alpha) * b)
  | _, _ => none

/-- `MultiFocalLoss.forward` (lines 229–256, `alpha=None`): per pixel,
gather the target class's log-softmax probability `logpt`, apply the focal
factor `(1 - pt)^gamma`, and average.  `gather` with an out-of-range class
index is a runtime error, modelled as `none`. -/
noncomputable def MultiFocalLoss (gamma : ℕ) (input : List (List ℝ))
    (target : List ℕ) : Option ℝ :=
  match seqO ((input.zip target).map fun a =>
    if a.2 < a.1.length then
      (logO ((a.1.map Real.exp).sum)).map (fun ls =>
        -(1 - Real.exp (a.1.getD a.2 0 - ls)) ^ gamma * (a.1.getD a.2 0 - ls))
    else none) with
  | some ls => meanO ls
  | none => none

/-- `GetLoss.forward` (lines 259–291): optionally apply sigmoid to the
input, then sum the component losses, weighted when `loss_weights` is
given. -/
noncomputable def GetLoss
    (loss_funs : List (List (List ℝ) → List (List ℝ) → Option ℝ))
    (loss_weights : Option (List ℝ)) (sigmoid_flag : Bool)
    (input target : List (List ℝ)) : Option ℝ :=
  let inp := if sigmoid_flag then input.map (List.map sigmoidR) else input
  match loss_weights with
  | some ws =>
    (seqO ((loss_funs.zip ws).map fun fw =>
      (fw.1 inp target).map fun v => fw.2 * v)).map List.sum
  | none =>
    (seqO (loss_funs.map fun f => f inp target)).map List.sum

lemma sigmoidR_pos (x : ℝ) : 0 < sigmoidR x := by
  unfold sigmoidR
  positivity

lemma sigmoidR_lt_one (x : ℝ) : sigmoidR x < 1 := by
  unfold sigmoidR
  rw [div_lt_one (by positivity)]
  linarith [Real.exp_pos (-x)]

lemma filter_zip_replicate (c d : ℝ) (hcd : c ≠ d) (l : List ℝ) (n : ℕ) :
    ((l.zip (List.replicate n c)).filter fun a => a.2 = d) = [] := by
  induction l generalizing n with
  | nil => simp
  | cons x t ih =>
    cases n with
    | zero => simp
    | succ m =>
      rw [List.replicate_succ, List.zip_cons_cons, List.filter_cons]
      simp only [decide_eq_true_eq]
      rw [if_neg (by simpa using hcd)]
      exact ih m

lemma FocalLoss_target_const_none (g : ℕ) (al : ℝ) (inp : List ℝ) (n : ℕ) :
    FocalLoss g al inp (List.replicate n 0) = none ∧
    FocalLoss g al inp (List.replicate n 1) = none := by
  have hmn : meanO ([] : List ℝ) = none := by simp [meanO]
  constructor
  · unfold FocalLoss
    dsimp only
    rw [filter_zip_replicate 0 1 (by norm_num)]
    simp only [List.map_nil]
    rw [hmn]
  · unfold FocalLoss
    dsimp only
    rw [filter_zip_replicate 1 0 (by norm_num)]
    simp only [List.map_nil]
    rw [hmn]
    split <;> simp_all

lemma seqO_some (l : List (Option ℝ)) (h : ∀ x ∈ l, x.isSome) :
    ∃ v, seqO l = some v ∧ v.length = l.length := by
  induction l with
  | nil => exact ⟨[], rfl, rfl⟩
  | cons a t ih =>
    obtain ⟨x, hx⟩ := Option.isSome_iff_exists.mp (h a (by simp))
    obtain ⟨v, hv, hl⟩ := ih fun y hy => h y (by simp [hy])
    subst hx
    refine ⟨x :: v, ?_, by simp [hl]⟩
    simp [seqO, hv]

lemma binary_sum_nonneg (t : List ℝ) (ht : ∀ x ∈ t, x = 0 ∨ x = 1) :
    0 ≤ t.sum := by
  apply List.sum_nonneg
  intro x hx
  rcases ht x hx with rfl | rfl <;> norm_num

lemma sigmoid_map_sum_nonneg (s : List ℝ) : 0 ≤ (s.map sigmoidR).sum := by
  apply List.sum_nonneg
  intro x hx
  obtain ⟨y, _, rfl⟩ := List.mem_map.mp hx
  exact le_of_lt (sigmoidR_pos y)

lemma DiceLoss_some (input target : List (List ℝ)) (hne : input ≠ [])
    (htb : ∀ t ∈ target, ∀ x ∈ t, x = 0 ∨ x = 1) :
    (DiceLoss input target).isSome := by
  unfold DiceLoss dice_loss
  dsimp only
  have hsc : ∀ x ∈ ((input.map (List.map sigmoidR)).zip target).map fun pt =>
      divO (2 * (((pt.1.zip pt.2).map fun a => a.1 * a.2).sum + 1))
        (pt.1.sum + pt.2.sum + 1), x.isSome := by
    intro x hx
    obtain ⟨pt, hpt, rfl⟩ := List.mem_map.mp hx
    have h1 : pt.1 ∈ input.map (List.map sigmoidR) := (List.of_mem_zip hpt).1
    have h2 : pt.2 ∈ target := (List.of_mem_zip hpt).2
    obtain ⟨s, _, hs⟩ := List.mem_map.mp h1
    have hs1 : 0 ≤ pt.1.sum := by
      rw [← hs]
      exact sigmoid_map_sum_nonneg s
    have hs2 : 0 ≤ pt.2.sum := binary_sum_nonneg pt.2 (htb pt.2 h2)
    unfold divO
    rw [if_neg (by positivity)]
    rfl
  obtain ⟨v, hv, _⟩ := seqO_some _ hsc
  rw [hv]
  dsimp only
  have hlen : ((input.map (List.map sigmoidR)).length : ℝ) ≠ 0 := by
    simp only [List.length_map]
    exact_mod_cast fun h => hne (List.length_eq_zero.mp h)
  unfold divO
  rw [if_neg hlen]
  rfl

lemma flatten_length_eq (input target : List (List ℝ))
    (hlen : input.length = target.length)
    (hshape : ∀ pt ∈ input.zip target, pt.1.length = pt.2.length) :
    input.flatten.length = target.flatten.length := by
  induction input generalizing target with
  | nil =>
    cases target with
    | nil => rfl
    | cons b t => simp at hlen
  | cons a it ih =>
    cases target with
    | nil => simp at hlen
    | cons b tt =>
      have h1 : a.length = b.length :=
        hshape (a, b) (by rw [List.zip_cons_cons]; simp)
      have h2 : it.flatten.length = tt.flatten.length := by
        refine ih tt (by simpa using hlen) fun pt hpt => ?_
        exact hshape pt (by rw [List.zip_cons_cons]; simp [hpt])
      simp [h1, h2]

lemma BCEWithLogitsLoss_some (a b : List ℝ) (hlen : a.length = b.length)
    (hne : a ≠ []) : (BCEWithLogitsLoss a b).isSome := by
  unfold BCEWithLogitsLoss
  have hel : ∀ x ∈ (a.zip b).map fun p =>
      match logO (sigmoidR p.1), logO (1 - sigmoidR p.1) with
      | some lp, some ln => some (-(p.2 * lp + (1 - p.2) * ln))
      | _, _ => none, x.isSome := by
    intro x hx
    obtain ⟨p, _, rfl⟩ := List.mem_map.mp hx
    have hl1 : logO (sigmoidR p.1) = some (Real.log (sigmoidR p.1)) := by
      unfold logO
      rw [if_neg (not_le.mpr (sigmoidR_pos p.1))]
    have hl2 : logO (1 - sigmoidR p.1) = some (Real.log (1 - sigmoidR p.1)) := by
      unfold logO
      rw [if_neg (not_le.mpr (by linarith [sigmoidR_lt_one p.1]))]
    rw [hl1, hl2]
    rfl
  obtain ⟨v, hv, hvl⟩ := seqO_some _ hel
  rw [hv]
  dsimp only
  have hvne : ¬(v.isEmpty = true) := by
    intro hemp
    have hva : v.length = a.length := by
      rw [hvl, List.length_map, List.length_zip, hlen, min_self, ← hlen]
    rw [List.isEmpty_iff.mp hemp] at hva
    exact hne (List.length_eq_zero.mp (by simpa using hva.symm))
  unfold meanO
  rw [if_neg hvne]
  rfl

lemma BCEDiceLoss_some (input target : List (List ℝ))
    (hlen : input.length = target.length)
    (hshape : ∀ pt ∈ input.zip target, pt.1.length = pt.2.length)
    (hne : input ≠ []) (hfne : input.flatten ≠ [])
    (htb : ∀ t ∈ target, ∀ x ∈ t, x = 0 ∨ x = 1) :
    (BCEDiceLoss input target).isSome := by
  unfold BCEDiceLoss
  have hb := BCEWithLogitsLoss_some input.flatten target.flatten
    (flatten_length_eq input target hlen hshape) hfne
  have hd := DiceLoss_some input target hne htb
  obtain ⟨x, hx⟩ := Option.isSome_iff_exists.mp hb
  obtain ⟨y, hy⟩ := Option.isSome_iff_exists.mp hd
  rw [hx, hy]
  rfl

lemma zip_replicate_snd {α : Type} (l : List α) (n : ℕ) (c : ℕ)
    (a : α × ℕ) (ha : a ∈ l.zip (List.replicate n c)) : a.2 = c :=
  List.eq_of_mem_replicate (List.of_mem_zip ha).2

lemma MultiFocalLoss_some (g : ℕ) (input2 : List (List ℝ)) (c : ℕ)
    (hne : input2 ≠ []) (hC : ∀ r ∈ input2, c < r.length) :
    (MultiFocalLoss g input2 (List.replicate input2.length c)).isSome := by
  unfold MultiFocalLoss
  have hel : ∀ x ∈ (input2.zip (List.replicate input2.length c)).map fun a =>
      if a.2 < a.1.length then
        (logO ((a.1.map Real.exp).sum)).map (fun ls =>
          -(1 - Real.exp (a.1.getD a.2 0 - ls)) ^ g * (a.1.getD a.2 0 - ls))
      else none, x.isSome := by
    intro x hx
    obtain ⟨a, ha, rfl⟩ := List.mem_map.mp hx
    have h1 : a.1 ∈ input2 := (List.of_mem_zip ha).1
    have h2 : a.2 = c := zip_replicate_snd input2 input2.length c a ha
    have hclt : a.2 < a.1.length := h2 ▸ hC a.1 h1
    rw [if_pos hclt]
    have hrne : a.1 ≠ [] := by
      intro h0
      rw [h0] at hclt
      simp at hclt
    have hpos : 0 < (a.1.map Real.exp).sum := by
      apply List.sum_pos
      · intro p hp
        obtain ⟨y, _, rfl⟩ := List.mem_map.mp hp
        exact Real.exp_pos y
      · simpa using hrne
    unfold logO
    rw [if_neg (not_le.mpr hpos)]
    rfl
  obtain ⟨v, hv, hvl⟩ := seqO_some _ hel
  rw [hv]
  dsimp only
  have hvne : ¬(v.isEmpty = true) := by
    intro hemp
    have hl : v.length = input2.length := by
      rw [hvl, List.length_map, List.length_zip, List.length_replicate, min_self]
    rw [List.isEmpty_iff.mp hemp] at hl
    exact hne (List.length_eq_zero.mp (by simpa using hl.symm))
  unfold meanO
  rw [if_neg hvne]
  rfl

lemma GetLoss_some
    (loss_funs : List (List (List ℝ) → List (List ℝ) → Option ℝ))
    (flag : Bool) (input target : List (List ℝ)) (ws : List ℝ)
    (hfs : ∀ f ∈ loss_funs,
      (f (if flag then input.map (List.map sigmoidR) else input) target).isSome) :
    (GetLoss loss_funs none flag input target).isSome ∧
    (GetLoss loss_funs (some ws) flag input target).isSome := by
  constructor
  · unfold GetLoss
    dsimp only
    have hel : ∀ x ∈ loss_funs.map fun f =>
        f (if flag then input.map (List.map sigmoidR) else input) target,
        x.isSome := by
      intro x hx
      obtain ⟨f, hf, rfl⟩ := List.mem_map.mp hx
      exact hfs f hf
    obtain ⟨v, hv, _⟩ := seqO_some _ hel
    rw [hv]
    rfl
  · unfold GetLoss
    dsimp only
    have hel : ∀ x ∈ (loss_funs.zip ws).map fun fw =>
        (fw.1 (if flag then input.map (List.map sigmoidR) else input)
          target).map fun v => fw.2 * v, x.isSome := by
      intro x hx
      obtain ⟨fw, hfw, rfl⟩ := List.mem_map.mp hx
      have := hfs fw.1 (List.of_mem_zip hfw).1
      obtain ⟨y, hy⟩ := Option.isSome_iff_exists.mp this
      rw [hy]
      rfl
    obtain ⟨v, hv, _⟩ := seqO_some _ hel
    rw [hv]
    rfl

/-- C8 counterexample: `FocalLoss` (gamma 2, alpha 1/4) on the one-pixel
logit batch `[0]` yields NaN for both the all-zero and the all-one target:
the mean over the empty positive (resp. negative) pixel subset is the mean
of an empty tensor. -/
theorem claim_C8_counterexample :
    FocalLoss 2 (1 / 4) [0] [0] = none ∧ FocalLoss 2 (1 / 4) [0] [1] = none := by
  have h := FocalLoss_target_const_none 2 (1 / 4) [0] 1
  simpa using h

/-- C8 (amended): on all-zero and all-one target batches, `DiceLoss`,
`BCEDiceLoss` (nonempty batch with matching shapes and at least one pixel),
`MultiFocalLoss` (nonempty batch, constant class index within range, which
covers all-zero and, when every row has at least two classes, all-one
targets), and weighted or unweighted `GetLoss` composites of finite
components all produce finite values; `FocalLoss`, however, produces a
non-finite value on every batch whose target is all-zero or all-one. -/
theorem claim_C8_loss_finiteness (input target : List (List ℝ))
    (hlen : input.length = target.length)
    (hshape : ∀ pt ∈ input.zip target, pt.1.length = pt.2.length)
    (hne : input ≠ []) (hfne : input.flatten ≠ [])
    (htb : ∀ t ∈ target, ∀ x ∈ t, x = 0 ∨ x = 1)
    (input2 : List (List ℝ)) (c g : ℕ)
    (hne2 : input2 ≠ []) (hC : ∀ r ∈ input2, c < r.length)
    (loss_funs : List (List (List ℝ) → List (List ℝ) → Option ℝ))
    (flag : Bool) (ws : List ℝ)
    (hfs : ∀ f ∈ loss_funs,
      (f (if flag then input.map (List.map sigmoidR) else input) target).isSome) :
    (DiceLoss input target).isSome ∧
    (BCEDiceLoss input target).isSome ∧
    (MultiFocalLoss g input2 (List.replicate input2.length c)).isSome ∧
    (GetLoss loss_funs none flag input target).isSome ∧
    (GetLoss loss_funs (some ws) flag input target).isSome ∧
    (∀ g' : ℕ, ∀ al : ℝ, ∀ inp : List ℝ, ∀ n : ℕ,
      FocalLoss g' al inp (List.replicate n 0) = none ∧
      FocalLoss g' al inp (List.replicate n 1) = none) :=
  ⟨DiceLoss_some input target hne htb,
    BCEDiceLoss_some input target hlen hshape hne hfne htb,
    MultiFocalLoss_some g input2 c hne2 hC,
    (GetLoss_some loss_funs flag input target ws hfs).1,
    (GetLoss_some loss_funs flag input target ws hfs).2,
    fun g' al inp n => FocalLoss_target_const_none g' al inp n⟩

/-- C8 witness: a one-sample, one-pixel logit batch with an all-zero
target, a one-row two-class batch for the multi-class loss, and an empty
component list for the composite. -/
theorem claim_C8_loss_finiteness_witness :
    (DiceLoss [[0]] [[0]]).isSome ∧
    (BCEDiceLoss [[0]] [[0]]).isSome ∧
    (MultiFocalLoss 2 [[0, 0]] (List.replicate ([[(0:ℝ), 0]]).length 1)).isSome ∧
    (GetLoss [] none true [[0]] [[0]]).isSome ∧
    (GetLoss [] (some [1]) true [[0]] [[0]]).isSome ∧
    (∀ g' : ℕ, ∀ al : ℝ, ∀ inp : List ℝ, ∀ n : ℕ,
      FocalLoss g' al inp (List.replicate n 0) = none ∧
      FocalLoss g' al inp (List.replicate n 1) = none) :=
  claim_C8_loss_finiteness [[0]] [[0]] (by simp) (by simp) (by simp) (by simp)
    (by norm_num) [[0, 0]] 1 2 (by simp) (by norm_num) [] true [1] (by simp)

end Pneumothorax
